import Mathlib

/-!
# Verification of the practice-companion core

Shallow embedding of the score-timeline parser, the timeline queries, the
MIDI accuracy engine and the metronome scheduler of the
`nada-sousou-piano-companion` repository, together with proofs of the
spec's claims about them.

Modelling conventions:
* JavaScript `number` values are embedded as `ℚ` (times, tempi) or `ℤ`/`ℕ`
  (pitches, counters, byte values).  IEEE NaN is not representable in `ℚ`;
  inputs whose JS evaluation produces NaN (e.g. a non-numeric `divisions`
  text) are outside the modelled domain unless a claim is explicitly about
  the parse fallback, in which case `Option` encodes NaN as `none`.
* DOM access is pre-flattened: an XML `measure` element becomes an
  `XMeasure`, a `note` element an `XNote`, whose fields hold the text
  contents the source reads via `querySelector`.  A field is `none` when
  the element is missing or its text is empty (both falsy in the source).
* React state cells (`useState`) become explicit record fields that the
  handlers transform; appending via `setX(prev => [...prev, v])` becomes
  `xs ++ [v]`.
-/

/-- JavaScript rounding `Math.round`: the nearest integer, halves rounding toward
positive infinity, i.e. `⌊q + 1/2⌋`. -/
def jsRound (q : ℚ) : ℚ := ⌊q + 1 / 2⌋

/-- Numeric value of a decimal digit character. -/
def digitVal (c : Char) : ℕ := c.toNat - 48

/-- JavaScript `parseInt(s, 10)`: skip leading whitespace, read an optional
sign, then the longest prefix of decimal digits; `none` models the NaN
result when no digit is found. -/
def jsParseInt (s : String) : Option ℤ :=
  let cs := s.toList.dropWhile (fun c => c.isWhitespace)
  let signed : ℤ × List Char :=
    match cs with
    | '-' :: rest => (-1, rest)
    | '+' :: rest => (1, rest)
    | _ => (1, cs)
  let ds := signed.2.takeWhile (fun c => c.isDigit)
  if ds.isEmpty then none
  else some (signed.1 * (ds.foldl (fun acc c => 10 * acc + digitVal c) 0 : ℕ))

/-! ## Data model (useMusicXML.ts) -/

/-- Which hand plays a note (`'left' | 'right' | 'both'`). -/
inductive Hand where
  | left
  | right
  | both
  deriving DecidableEq, Repr

/-- A parsed note (interface `Note` of useMusicXML.ts).  The source field
`end` is a Lean keyword and is embedded as `endTime`. -/
structure Note where
  id : String
  pitch : ℤ
  start : ℚ
  endTime : ℚ
  duration : ℚ
  measure : ℤ
  hand : Hand
  finger : Option ℕ
  deriving DecidableEq, Repr

/-- A measure timestamp (interface `MeasureTimestamp`). -/
structure Measure where
  measure : ℤ
  start : ℚ
  endTime : ℚ
  deriving DecidableEq, Repr

/-- The parsed score (interface `MusicData`). -/
structure MusicData where
  notes : List Note
  measures : List Measure
  title : String
  composer : String
  tempo : ℚ
  deriving DecidableEq, Repr

/-! ## Input side of the parser

The source walks DOM elements; the embedding receives the same data
pre-extracted.  `none` stands for a missing element or empty text (falsy
strings in the source's `!step || !octave` and `!durationEl?.textContent`
checks); numeric texts appear already `parseInt`-ed, which is faithful for
the well-formed integer contents the claims range over. -/

/-- One `note` element of a measure. -/
structure XNote where
  isRest : Bool
  step : Option String
  octave : Option ℤ
  alter : Option ℤ
  duration : Option ℕ
  finger : Option ℕ
  deriving DecidableEq, Repr

/-- One `measure` element: its `number` attribute (`parseInt(attr || '1')`),
its optional `divisions` child, and its `note` children in document
order. -/
structure XMeasure where
  number : ℤ
  divisions : Option ℕ
  notes : List XNote
  deriving DecidableEq, Repr

/-- The diatonic offset table `pitchMap` of the source
(`{C:0, D:2, E:4, F:5, G:7, A:9, B:11}`).  An unknown step yields
`undefined` (hence NaN pitch) in JS; that case is outside the modelled
domain and mapped to 0 here — no claim depends on it. -/
def pitchMap (step : String) : ℤ :=
  if step = "C" then 0
  else if step = "D" then 2
  else if step = "E" then 4
  else if step = "F" then 5
  else if step = "G" then 7
  else if step = "A" then 9
  else if step = "B" then 11
  else 0

/-- The body of the per-note callback in `fetchAndParseMusicXML`
(useMusicXML.ts lines 84–133): skip rests, skip entries missing pitch or
duration, otherwise build the `Note` and advance the running clock.
Returns the emitted note (if any) and the new clock. -/
def emitNote (tempo : ℚ) (divisions : ℕ) (measureNumber : ℤ)
    (noteIndex : ℕ) (currentTime : ℚ) (n : XNote) : Option Note × ℚ :=
  if n.isRest then (none, currentTime)
  else
    match n.step, n.octave with
    | some step, some octave =>
      let baseNote : ℤ := pitchMap step + octave * 12
      let alterValue : ℤ := n.alter.getD 0
      let pitch : ℤ := baseNote + alterValue
      match n.duration with
      | none => (none, currentTime)
      | some durationInDivisions =>
        let durationInQuarters : ℚ := (durationInDivisions : ℚ) / (divisions : ℚ)
        let durationInSeconds : ℚ := durationInQuarters * (60 / tempo)
        let hand : Hand := if pitch < 60 then Hand.left else Hand.right
        (some { id := "note-" ++ toString measureNumber ++ "-" ++ toString noteIndex,
                pitch := pitch,
                start := currentTime,
                duration := durationInSeconds,
                endTime := currentTime + durationInSeconds,
                measure := measureNumber,
                hand := hand,
                finger := n.finger },
         currentTime + durationInSeconds)
    | _, _ => (none, currentTime)

/-- The `noteElements.forEach` loop: fold `emitNote` over the note
elements of one measure, threading the running clock and the element
index (the index counts every `note` element, rests included, exactly as
`forEach`'s index does). -/
def processNotes (tempo : ℚ) (divisions : ℕ) (mnum : ℤ) :
    ℚ → ℕ → List XNote → List Note × ℚ
  | clock, _, [] => ([], clock)
  | clock, idx, n :: rest =>
    match emitNote tempo divisions mnum idx clock n with
    | (none, c) => processNotes tempo divisions mnum c (idx + 1) rest
    | (some note, c) =>
      (note :: (processNotes tempo divisions mnum c (idx + 1) rest).1,
       (processNotes tempo divisions mnum c (idx + 1) rest).2)

/-- One iteration of the `measureElements.forEach` loop: resolve the
per-measure divisions (`parseInt(text || '4')`, defaulting to 4 when the
element is absent), process the notes, and record the measure timestamp
`{number, start := measureStartTime, end := currentTime}`. -/
def processMeasure (tempo : ℚ) (clock : ℚ) (m : XMeasure) : List Note × Measure :=
  ((processNotes tempo (m.divisions.getD 4) m.number clock 0 m.notes).1,
   { measure := m.number, start := clock,
     endTime := (processNotes tempo (m.divisions.getD 4) m.number clock 0 m.notes).2 })

/-- The whole measure walk of `fetchAndParseMusicXML`, threading the
running clock (`currentTime`) through the measures. -/
def parseMeasures (tempo : ℚ) : ℚ → List XMeasure → List Note × List Measure
  | _, [] => ([], [])
  | clock, m :: rest =>
    ((processMeasure tempo clock m).1 ++
       (parseMeasures tempo (processMeasure tempo clock m).2.endTime rest).1,
     (processMeasure tempo clock m).2 ::
       (parseMeasures tempo (processMeasure tempo clock m).2.endTime rest).2)

/-- Assemble the `MusicData` value `fetchAndParseMusicXML` stores: the
measure walk starts at clock 0. -/
def parseScore (tempo : ℚ) (title composer : String) (ms : List XMeasure) : MusicData :=
  { notes := (parseMeasures tempo 0 ms).1,
    measures := (parseMeasures tempo 0 ms).2,
    title := title, composer := composer, tempo := tempo }

/-- The tempo-resolution line of the source:
`tempoElement ? parseInt(tempoElement.getAttribute('tempo') || '74', 10) : 74`.
The argument is `none` when no `sound[tempo]` element matches, otherwise
the attribute's string value.  The `|| '74'` fallback fires only on the
empty string; a non-numeric value yields NaN, embedded as `none`. -/
def parseTempoAttr (attr : Option String) : Option ℤ :=
  match attr with
  | none => some 74
  | some s => jsParseInt (if s = "" then "74" else s)

/-! ## Timeline queries (useMusicXML.ts lines 164–181) -/

/-- The filter predicate of `getActiveNotesAtTime`:
`time >= note.start && time <= note.end`. -/
def activePred (time : ℚ) (note : Note) : Bool :=
  decide (time ≥ note.start) && decide (time ≤ note.endTime)

/-- Query `getActiveNotesAtTime` — `musicData.notes.filter(...)`.  The `!musicData`
guard returns `[]` before a score is loaded; the embedding always has a
`MusicData` in hand. -/
def getActiveNotesAtTime (d : MusicData) (time : ℚ) : List Note :=
  d.notes.filter (activePred time)

/-- The find predicate of `getCurrentMeasureAtTime`:
`time >= m.start && time <= m.end`. -/
def measurePred (time : ℚ) (m : Measure) : Bool :=
  decide (time ≥ m.start) && decide (time ≤ m.endTime)

/-- Query `getCurrentMeasureAtTime` — `measures.find(...)` then
`currentMeasure?.measure || 1`.  On `ℤ` the JS `|| 1` falls back exactly
when the found measure number is 0 (0 is falsy; NaN, the other falsy
number, is outside the `ℤ` model). -/
def getCurrentMeasureAtTime (d : MusicData) (time : ℚ) : ℤ :=
  match d.measures.find? (measurePred time) with
  | none => 1
  | some m => if m.measure = 0 then 1 else m.measure

/-! ## MIDI accuracy engine (useMIDI.ts) -/

/-- An active (held) note — interface `MIDINote`. -/
structure MIDINote where
  note : ℕ
  velocity : ℕ
  timestamp : ℚ
  deriving DecidableEq, Repr

/-- One accuracy record — interface `MIDIAccuracy`. -/
structure MIDIAccuracy where
  noteId : String
  expectedNote : ℤ
  actualNote : ℤ
  timingOffset : ℚ
  isCorrect : Bool
  deriving DecidableEq, Repr

/-- An entry of `options.expectedNotes`. -/
structure ExpectedNote where
  id : String
  pitch : ℤ
  start : ℚ
  endTime : ℚ
  deriving DecidableEq, Repr

/-- The engine's state: the two `useState` cells of `useMIDI` that the
message handler touches. -/
structure MIDIState where
  activeNotes : List MIDINote
  accuracy : List MIDIAccuracy
  deriving DecidableEq, Repr

/-- The matching predicate inside `handleMIDIMessage`:
`Math.abs(n.start - currentTime) < 1 && n.pitch === note`. -/
def matchPred (currentTime : ℚ) (note : ℕ) (n : ExpectedNote) : Bool :=
  decide (|n.start - currentTime| < 1) && decide (n.pitch = (note : ℤ))

/-- Handler `handleMIDIMessage` (useMIDI.ts lines 109–159).  `expectedNotes` and
`currentTime` are the two option fields; `now` models the `Date.now()`
token of the generated wrong-note id; `timestamp` models
`performance.now()`. -/
def handleMIDIMessage (expectedNotes : Option (List ExpectedNote))
    (currentTime : Option ℚ) (now : String) (timestamp : ℚ)
    (command note velocity : ℕ) (s : MIDIState) : MIDIState :=
  if 144 ≤ command ∧ command ≤ 159 ∧ 0 < velocity then
    match expectedNotes, currentTime with
    | some ens, some ct =>
      match ens.find? (matchPred ct note) with
      | some expectedNote =>
        { activeNotes := s.activeNotes ++ [⟨note, velocity, timestamp⟩],
          accuracy := s.accuracy ++
            [⟨expectedNote.id, expectedNote.pitch, (note : ℤ),
              jsRound ((timestamp - expectedNote.start) * 1000), true⟩] }
      | none =>
        { activeNotes := s.activeNotes ++ [⟨note, velocity, timestamp⟩],
          accuracy := s.accuracy ++ [⟨"wrong-" ++ now, -1, (note : ℤ), 0, false⟩] }
    | _, _ =>
      { s with activeNotes := s.activeNotes ++ [⟨note, velocity, timestamp⟩] }
  else if (128 ≤ command ∧ command ≤ 143) ∨
          (144 ≤ command ∧ command ≤ 159 ∧ velocity = 0) then
    { s with activeNotes := s.activeNotes.filter (fun n => n.note ≠ note) }
  else s

/-- Aggregate `accuracyPercentage` (useMIDI.ts lines 46–48). -/
def accuracyPercentage (accuracy : List MIDIAccuracy) : ℚ :=
  if accuracy.length > 0 then
    jsRound ((((accuracy.filter (fun a => a.isCorrect)).length : ℚ) /
      (accuracy.length : ℚ)) * 100)
  else 0

/-- Aggregate `averageTimingOffset` (useMIDI.ts lines 51–53):
`Math.round(accuracy.reduce((sum, a) => sum + Math.abs(a.timingOffset), 0) / accuracy.length)`. -/
def averageTimingOffset (accuracy : List MIDIAccuracy) : ℚ :=
  if accuracy.length > 0 then
    jsRound ((accuracy.foldl (fun sum a => sum + |a.timingOffset|) 0) /
      (accuracy.length : ℚ))
  else 0

/-- Reset `resetStats` (useMIDI.ts lines 177–179): `setAccuracy([])`. -/
def resetStats (s : MIDIState) : MIDIState :=
  { s with accuracy := [] }

/-! ## Metronome scheduler (useMetronome, second hook of useYouTube.ts)

The `setInterval` callback created by `start()` closes over the
`currentBeat` state value of the render that invoked `start`; every tick
it advances the state with `setCurrentBeat(prev => (prev + 1) % 4)` and
then calls `options.onTick(currentBeat)` with that captured value. -/

/-- One interval tick: given the current beat state and the closure's
captured beat, return the new beat and the argument passed to `onTick`. -/
def metronomeTick (beat capturedBeat : ℕ) : ℕ × ℕ :=
  ((beat + 1) % 4, capturedBeat)

/-- A run of `n` ticks after a fresh `start()` (beat counter reset to 0,
closure capturing beat 0): the resulting beat state and the list of
arguments handed to `onTick`, in order. -/
def runMetronome : ℕ → ℕ × List ℕ
  | 0 => (0, [])
  | n + 1 =>
    let r := runMetronome n
    let t := metronomeTick r.1 0
    (t.1, r.2 ++ [t.2])

/-! ## Helper lemmas -/

theorem jsRound_intCast (z : ℤ) : jsRound (z : ℚ) = z := by
  have h : ⌊(z : ℚ) + 1 / 2⌋ = z := by
    rw [Int.floor_eq_iff]
    constructor
    · linarith
    · linarith
  rw [jsRound, h]

theorem find?_append_first {α : Type} (p : α → Bool) (pre : List α) (a : α)
    (post : List α) (hpre : ∀ x ∈ pre, p x = false) (ha : p a = true) :
    (pre ++ a :: post).find? p = some a := by
  induction pre with
  | nil => simpa using List.find?_cons_of_pos post ha
  | cons b pre ih =>
    have hb : ¬ p b = true := by simp [hpre b (by simp)]
    rw [List.cons_append, List.find?_cons_of_neg _ hb]
    exact ih (fun x hx => hpre x (by simp [hx]))

theorem foldl_abs_eq_sum (l : List MIDIAccuracy) :
    ∀ init : ℚ, l.foldl (fun sum a => sum + |a.timingOffset|) init
      = init + (l.map (fun a => |a.timingOffset|)).sum := by
  induction l with
  | nil => simp
  | cons a l ih =>
    intro init
    simp only [List.foldl_cons, List.map_cons, List.sum_cons, ih]
    ring

/-! ## Claim theorems: accuracy engine aggregates and reset -/

/-- C8: resetStats sets the accuracy log to the empty list and leaves
the set of currently held (active) notes exactly as it was. -/
theorem resetStats_spec (s : MIDIState) :
    (resetStats s).accuracy = [] ∧ (resetStats s).activeNotes = s.activeNotes :=
  ⟨rfl, rfl⟩

/-- C2: the percentage is `round(100·correct/total)` and
`averageTimingOffset` is the rounded mean of `|timingOffset|` over all
entries; both are 0 on the empty log; the percentage is 100 when every
entry is correct and 0 when none is. -/
theorem accuracy_aggregates (log : List MIDIAccuracy) :
    accuracyPercentage log
      = jsRound (100 * ((log.filter (fun a => a.isCorrect)).length : ℚ) / (log.length : ℚ))
  ∧ averageTimingOffset log
      = jsRound (((log.map (fun a => |a.timingOffset|)).sum) / (log.length : ℚ))
  ∧ accuracyPercentage [] = 0 ∧ averageTimingOffset [] = 0
  ∧ (log ≠ [] → (∀ a ∈ log, a.isCorrect = true) → accuracyPercentage log = 100)
  ∧ ((∀ a ∈ log, a.isCorrect = false) → accuracyPercentage log = 0) := by
  have h0 : jsRound 0 = 0 := by simpa using jsRound_intCast 0
  have h100 : jsRound 100 = 100 := by simpa using jsRound_intCast 100
  refine ⟨?_, ?_, ?_, ?_, ?_, ?_⟩
  · rcases eq_or_ne log [] with h | h
    · subst h
      simp [accuracyPercentage, h0]
    · have hl : log.length > 0 := List.length_pos.mpr h
      rw [accuracyPercentage, if_pos hl]
      congr 1
      ring
  · rcases eq_or_ne log [] with h | h
    · subst h
      simp [averageTimingOffset, h0]
    · have hl : log.length > 0 := List.length_pos.mpr h
      rw [averageTimingOffset, if_pos hl, foldl_abs_eq_sum log 0]
      congr 1
      ring
  · simp [accuracyPercentage]
  · simp [averageTimingOffset]
  · intro hne hall
    have hl : log.length > 0 := List.length_pos.mpr hne
    have hfilter : log.filter (fun a => a.isCorrect) = log := by
      rw [List.filter_eq_self]
      intro a ha
      exact hall a ha
    have hlen : (log.length : ℚ) ≠ 0 := Nat.cast_ne_zero.mpr (by omega)
    rw [accuracyPercentage, if_pos hl, hfilter, div_self hlen]
    simpa using h100
  · intro hall
    have hfilter : log.filter (fun a => a.isCorrect) = [] := by
      rw [List.filter_eq_nil_iff]
      intro a ha
      simp [hall a ha]
    rcases eq_or_ne log [] with h | h
    · subst h
      simp [accuracyPercentage]
    · have hl : log.length > 0 := List.length_pos.mpr h
      rw [accuracyPercentage, if_pos hl, hfilter]
      simpa using h0

/-- Witness for C2 at concrete logs. -/
theorem accuracy_aggregates_witness :
    accuracyPercentage [⟨"note-1-0", 60, 60, 5, true⟩] = 100
  ∧ accuracyPercentage [] = 0 ∧ averageTimingOffset [] = 0 := by
  have h := accuracy_aggregates [⟨"note-1-0", 60, 60, 5, true⟩]
  exact ⟨h.2.2.2.2.1 (by simp) (by simp), h.2.2.1, h.2.2.2.1⟩

/-! ## Claim theorems: metronome -/

/-- C6 counterexample: from the reachable beat state 3 (reached after three
ticks of a fresh run) the next tick produces beat 0, not
`(3 % beatsPerMeasure) + 1 = 4`; and the tick's callback argument is the
closure-captured beat, not the new beat index. -/
theorem metronome_claim_false :
    (runMetronome 3).1 = 3
  ∧ (metronomeTick 3 0).1 = 0
  ∧ 3 % 4 + 1 = 4
  ∧ (metronomeTick 3 0).1 ≠ 3 % 4 + 1
  ∧ (metronomeTick 0 0).2 ≠ (metronomeTick 0 0).1 := by
  decide

/-- C6 amended: each tick advances the beat as `(beat + 1) % 4` with a
hard-coded 4 (indices cycle 0..3), so after `n` ticks of a fresh run the
beat is `n % 4`; the optional callback is invoked with the beat value the
interval closure captured at `start()` (0 for a fresh run), never with the
newly produced index. -/
theorem metronome_beats (n : ℕ) :
    (runMetronome n).1 = n % 4 ∧ (runMetronome n).2 = List.replicate n 0 := by
  induction n with
  | zero => simp [runMetronome]
  | succ n ih =>
    constructor
    · show ((runMetronome n).1 + 1) % 4 = (n + 1) % 4
      rw [ih.1]
      omega
    · show (runMetronome n).2 ++ [0] = List.replicate (n + 1) 0
      rw [ih.2, List.replicate_succ']

/-! ## Claim theorems: tempo resolution (counterexample part) -/

/-- C7 counterexample: a present but malformed (non-numeric) tempo
attribute does not fall back to 74 — `parseInt` yields NaN (`none`). -/
theorem tempo_malformed_not_74 :
    jsParseInt "fast" = none
  ∧ parseTempoAttr (some "fast") = none
  ∧ parseTempoAttr (some "fast") ≠ some 74 := by
  refine ⟨?_, ?_, ?_⟩ <;> decide

/-! ## Claim theorems: current-measure query -/

/-- The score used in the C9 counterexample: a single measure whose
`number` attribute is 0 (a MusicXML pickup measure), holding one quarter
note. -/
def pickupScore : MusicData :=
  parseScore 60 "t" "c" [⟨0, none, [⟨false, some "C", some 4, none, some 4, none⟩]⟩]

/-- C9 counterexample: at time 0 the first (and only) matching measure has
number 0, but `getCurrentMeasureAtTime` returns 1, because the fallback is
the JS `|| 1`, which also fires on the falsy number 0. -/
theorem currentMeasure_zero_number :
    pickupScore.measures.find? (measurePred 0) = some ⟨0, 0, 1⟩
  ∧ getCurrentMeasureAtTime pickupScore 0 = 1
  ∧ getCurrentMeasureAtTime pickupScore 0 ≠ (⟨0, 0, 1⟩ : Measure).measure := by
  have hm : pickupScore.measures = [⟨0, 0, 1⟩] := by
    norm_num [pickupScore, parseScore, parseMeasures, processMeasure, processNotes, emitNote]
  have hp : measurePred 0 ⟨0, 0, 1⟩ = true := by
    norm_num [measurePred]
  have hfind : pickupScore.measures.find? (measurePred 0) = some ⟨0, 0, 1⟩ := by
    rw [hm]
    exact List.find?_cons_of_pos _ hp
  have hq : getCurrentMeasureAtTime pickupScore 0 = 1 := by
    rw [getCurrentMeasureAtTime, hfind]
    simp
  exact ⟨hfind, hq, by rw [hq]; decide⟩

/-- C9 amended: the query returns the number of the first measure with
`start ≤ t ≤ end` when that number is nonzero; it returns 1 when no
measure matches or when the matched measure's number is 0. -/
theorem currentMeasure_spec (d : MusicData) (t : ℚ) :
    (d.measures.find? (measurePred t) = none → getCurrentMeasureAtTime d t = 1)
  ∧ (∀ m, d.measures.find? (measurePred t) = some m → m.measure = 0 →
        getCurrentMeasureAtTime d t = 1)
  ∧ (∀ m, d.measures.find? (measurePred t) = some m → m.measure ≠ 0 →
        getCurrentMeasureAtTime d t = m.measure)
  ∧ (∀ m pre post, d.measures = pre ++ m :: post → measurePred t m = true →
        (∀ x ∈ pre, measurePred t x = false) →
        d.measures.find? (measurePred t) = some m) := by
  refine ⟨?_, ?_, ?_, ?_⟩
  · intro h
    rw [getCurrentMeasureAtTime, h]
  · intro m hm h0
    rw [getCurrentMeasureAtTime, hm]
    simp [h0]
  · intro m hm h0
    rw [getCurrentMeasureAtTime, hm]
    simp [h0]
  · intro m pre post hsplit hm hpre
    rw [hsplit]
    exact find?_append_first _ pre m post hpre hm

/-- Witness for C9's amended claim at a concrete score and time. -/
theorem currentMeasure_spec_witness :
    getCurrentMeasureAtTime ⟨[], [⟨2, 0, 1⟩], "t", "c", 74⟩ 0 = 2 := by
  exact (currentMeasure_spec ⟨[], [⟨2, 0, 1⟩], "t", "c", 74⟩ 0).2.2.1
    ⟨2, 0, 1⟩ (by decide) (by decide)

/-! ## Parser lemmas -/

/-- Case analysis of one parser iteration: an entry is either skipped
(rest, missing pitch, or missing duration), leaving the clock unchanged,
or it emits a note starting at the clock whose duration is the divisions
ratio times the beat length, advancing the clock by that duration. -/
theorem emitNote_cases (tempo : ℚ) (divisions : ℕ) (mnum : ℤ)
    (idx : ℕ) (clock : ℚ) (n : XNote) :
    emitNote tempo divisions mnum idx clock n = (none, clock)
  ∨ ∃ note d, emitNote tempo divisions mnum idx clock n
        = (some note, clock + note.duration)
      ∧ n.duration = some d
      ∧ note.duration = ((d : ℚ) / (divisions : ℚ)) * (60 / tempo)
      ∧ note.start = clock
      ∧ note.endTime = clock + note.duration := by
  rcases n with ⟨rest, step, oct, alt, dur, fin⟩
  cases rest with
  | true =>
    left
    simp [emitNote]
  | false =>
    cases step with
    | none =>
      left
      simp [emitNote]
    | some st =>
      cases oct with
      | none =>
        left
        simp [emitNote]
      | some o =>
        cases dur with
        | none =>
          left
          simp [emitNote]
        | some d =>
          right
          refine ⟨{ id := "note-" ++ toString mnum ++ "-" ++ toString idx,
                    pitch := pitchMap st + o * 12 + (Option.getD alt 0),
                    start := clock,
                    duration := ((d : ℚ) / (divisions : ℚ)) * (60 / tempo),
                    endTime := clock + ((d : ℚ) / (divisions : ℚ)) * (60 / tempo),
                    measure := mnum,
                    hand := if pitchMap st + o * 12 + (Option.getD alt 0) < 60
                            then Hand.left else Hand.right,
                    finger := fin }, d, ?_, rfl, rfl, rfl, rfl⟩
          simp [emitNote]

/-- The clock after a note list is the starting clock plus the sum of the
emitted durations: skipped entries (rests included) advance nothing. -/
theorem processNotes_clock (tempo : ℚ) (divisions : ℕ) (mnum : ℤ) :
    ∀ (xs : List XNote) (clock : ℚ) (idx : ℕ),
      (processNotes tempo divisions mnum clock idx xs).2
        = clock + ((processNotes tempo divisions mnum clock idx xs).1.map
            (fun note => note.duration)).sum := by
  intro xs
  induction xs with
  | nil =>
    intro clock idx
    simp [processNotes]
  | cons n rest ih =>
    intro clock idx
    rcases emitNote_cases tempo divisions mnum idx clock n with he |
      ⟨note, d, he, hd, hdur, hstart, hend⟩
    · simp only [processNotes, he]
      exact ih clock (idx + 1)
    · simp only [processNotes, he, List.map_cons, List.sum_cons]
      rw [ih (clock + note.duration) (idx + 1)]
      ring

/-- With a nonnegative tempo the clock never moves backwards, and every
emitted note ends no later than the final clock of its note list. -/
theorem processNotes_le (tempo : ℚ) (htempo : 0 ≤ tempo) (divisions : ℕ) (mnum : ℤ) :
    ∀ (xs : List XNote) (clock : ℚ) (idx : ℕ),
      clock ≤ (processNotes tempo divisions mnum clock idx xs).2
    ∧ ∀ note ∈ (processNotes tempo divisions mnum clock idx xs).1,
        note.endTime ≤ (processNotes tempo divisions mnum clock idx xs).2 := by
  intro xs
  induction xs with
  | nil =>
    intro clock idx
    constructor
    · exact le_refl _
    · intro note h
      simp [processNotes] at h
  | cons n rest ih =>
    intro clock idx
    rcases emitNote_cases tempo divisions mnum idx clock n with he |
      ⟨note, d, he, hd, hdur, hstart, hend⟩
    · constructor
      · simp only [processNotes, he]
        exact (ih clock (idx + 1)).1
      · simp only [processNotes, he]
        exact (ih clock (idx + 1)).2
    · have hdnn : 0 ≤ note.duration := by
        rw [hdur]
        exact mul_nonneg (div_nonneg (by positivity) (by positivity))
          (div_nonneg (by norm_num) htempo)
      have hrec := ih (clock + note.duration) (idx + 1)
      constructor
      · simp only [processNotes, he]
        linarith [hrec.1]
      · simp only [processNotes, he]
        intro m hm
        rcases List.mem_cons.mp hm with hm | hm
        · subst hm
          rw [hend]
          exact hrec.1
        · exact hrec.2 m hm

/-- A note list consisting only of rests emits nothing and leaves the
clock untouched. -/
theorem processNotes_all_rest (tempo : ℚ) (divisions : ℕ) (mnum : ℤ) :
    ∀ (xs : List XNote), (∀ n ∈ xs, n.isRest = true) →
      ∀ (clock : ℚ) (idx : ℕ),
        processNotes tempo divisions mnum clock idx xs = ([], clock) := by
  intro xs
  induction xs with
  | nil =>
    intro _ clock idx
    rfl
  | cons n rest ih =>
    intro h clock idx
    have hn : n.isRest = true := h n (by simp)
    have he : emitNote tempo divisions mnum idx clock n = (none, clock) := by
      rcases n with ⟨r, step, oct, alt, dur, fin⟩
      simp only [XNote.isRest] at hn
      subst hn
      simp [emitNote]
    simp only [processNotes, he]
    exact ih (fun m hm => h m (by simp [hm])) clock (idx + 1)

/-- Every note emitted for a note list gets its duration from the uniform
formula `(d / divisions) * (60 / tempo)` with the same tempo. -/
theorem processNotes_duration (tempo : ℚ) (divisions : ℕ) (mnum : ℤ) :
    ∀ (xs : List XNote) (clock : ℚ) (idx : ℕ),
      ∀ note ∈ (processNotes tempo divisions mnum clock idx xs).1,
        ∃ d : ℕ, note.duration = ((d : ℚ) / (divisions : ℚ)) * (60 / tempo) := by
  intro xs
  induction xs with
  | nil =>
    intro clock idx note h
    simp [processNotes] at h
  | cons n rest ih =>
    intro clock idx note h
    rcases emitNote_cases tempo divisions mnum idx clock n with he |
      ⟨note0, d, he, hd, hdur, hstart, hend⟩
    · simp only [processNotes, he] at h
      exact ih clock (idx + 1) note h
    · simp only [processNotes, he] at h
      rcases List.mem_cons.mp h with hm | hm
      · subst hm
        exact ⟨d, hdur⟩
      · exact ih (clock + note0.duration) (idx + 1) note hm

/-- Specification helper: the running clock after the whole measure walk,
starting from a given clock. -/
def finalClock (tempo : ℚ) : ℚ → List XMeasure → ℚ
  | clock, [] => clock
  | clock, m :: rest => finalClock tempo (processMeasure tempo clock m).2.endTime rest

/-- One measure never moves the clock backwards (nonnegative tempo), and
its emitted notes end no later than its end timestamp. -/
theorem processMeasure_le (tempo : ℚ) (htempo : 0 ≤ tempo) (clock : ℚ) (m : XMeasure) :
    clock ≤ (processMeasure tempo clock m).2.endTime
  ∧ ∀ note ∈ (processMeasure tempo clock m).1,
      note.endTime ≤ (processMeasure tempo clock m).2.endTime := by
  exact processNotes_le tempo htempo (m.divisions.getD 4) m.number m.notes clock 0

/-- The final clock dominates the starting clock (nonnegative tempo). -/
theorem finalClock_mono (tempo : ℚ) (htempo : 0 ≤ tempo) :
    ∀ (ms : List XMeasure) (clock : ℚ), clock ≤ finalClock tempo clock ms := by
  intro ms
  induction ms with
  | nil =>
    intro clock
    exact le_refl _
  | cons m rest ih =>
    intro clock
    show clock ≤ finalClock tempo (processMeasure tempo clock m).2.endTime rest
    calc clock ≤ (processMeasure tempo clock m).2.endTime :=
          (processMeasure_le tempo htempo clock m).1
      _ ≤ _ := ih _

/-- Every note produced by the measure walk ends no later than the final
clock (nonnegative tempo). -/
theorem parseMeasures_notes_le (tempo : ℚ) (htempo : 0 ≤ tempo) :
    ∀ (ms : List XMeasure) (clock : ℚ),
      ∀ note ∈ (parseMeasures tempo clock ms).1,
        note.endTime ≤ finalClock tempo clock ms := by
  intro ms
  induction ms with
  | nil =>
    intro clock note h
    simp [parseMeasures] at h
  | cons m rest ih =>
    intro clock note h
    simp only [parseMeasures] at h
    rcases List.mem_append.mp h with h | h
    · have h1 := (processMeasure_le tempo htempo clock m).2 note h
      have h2 := finalClock_mono tempo htempo rest (processMeasure tempo clock m).2.endTime
      show note.endTime ≤ finalClock tempo (processMeasure tempo clock m).2.endTime rest
      linarith
    · exact ih (processMeasure tempo clock m).2.endTime note h

/-- The last measure timestamp of a nonempty walk exists and carries the
final clock as its end. -/
theorem parseMeasures_last (tempo : ℚ) :
    ∀ (ms : List XMeasure) (clock : ℚ), ms ≠ [] →
      ∃ lm, (parseMeasures tempo clock ms).2.getLast? = some lm
        ∧ lm.endTime = finalClock tempo clock ms := by
  intro ms
  induction ms with
  | nil =>
    intro clock h
    exact absurd rfl h
  | cons m rest ih =>
    intro clock _
    rcases eq_or_ne rest [] with hr | hr
    · subst hr
      exact ⟨(processMeasure tempo clock m).2, rfl, rfl⟩
    · obtain ⟨lm, h1, h2⟩ := ih (processMeasure tempo clock m).2.endTime hr
      refine ⟨lm, ?_, h2⟩
      show ((processMeasure tempo clock m).2 ::
        (parseMeasures tempo (processMeasure tempo clock m).2.endTime rest).2).getLast?
          = some lm
      cases hL : (parseMeasures tempo (processMeasure tempo clock m).2.endTime rest).2 with
      | nil =>
        rw [hL] at h1
        simp at h1
      | cons b L =>
        rw [hL] at h1
        rw [List.getLast?_cons_cons]
        exact h1

/-- Measure timestamps chain: each measure's end is the next one's start,
and the first one starts at the initial clock. -/
theorem parseMeasures_chain (tempo : ℚ) :
    ∀ (ms : List XMeasure) (clock : ℚ),
      List.Chain' (fun a b => a.endTime = b.start) (parseMeasures tempo clock ms).2
    ∧ ∀ m0, (parseMeasures tempo clock ms).2.head? = some m0 → m0.start = clock := by
  intro ms
  induction ms with
  | nil =>
    intro clock
    constructor
    · simp [parseMeasures]
    · intro m0 h
      simp [parseMeasures] at h
  | cons m rest ih =>
    intro clock
    constructor
    · show List.Chain' _ ((processMeasure tempo clock m).2 ::
        (parseMeasures tempo (processMeasure tempo clock m).2.endTime rest).2)
      cases hL : (parseMeasures tempo (processMeasure tempo clock m).2.endTime rest).2 with
      | nil => simp
      | cons b L =>
        rw [List.chain'_cons]
        constructor
        · have hb := (ih (processMeasure tempo clock m).2.endTime).2 b (by rw [hL]; rfl)
          exact hb.symm
        · have hc := (ih (processMeasure tempo clock m).2.endTime).1
          rw [hL] at hc
          exact hc
    · intro m0 h
      have hm0 : some (processMeasure tempo clock m).2 = some m0 := h
      obtain rfl : (processMeasure tempo clock m).2 = m0 := Option.some_inj.mp hm0
      rfl

/-! ## Claim theorems: parser and timeline queries -/

/-- Two one-note measures (quarter notes at default divisions, tempo 60),
used as concrete input by witnesses. -/
def demoMs : List XMeasure :=
  [⟨1, none, [⟨false, some "C", some 4, none, some 4, none⟩]⟩,
   ⟨2, none, [⟨false, some "D", some 4, none, some 4, none⟩]⟩]

/-- C3: for every parse, consecutive measure timestamps chain
(`measure[i].end = measure[i+1].start`) and the first measure starts
at 0. -/
theorem measures_partition (tempo : ℚ) (title composer : String) (ms : List XMeasure) :
    List.Chain' (fun a b => a.endTime = b.start)
      (parseScore tempo title composer ms).measures
  ∧ ∀ m0, (parseScore tempo title composer ms).measures.head? = some m0 →
      m0.start = 0 := by
  exact parseMeasures_chain tempo ms 0

/-- Witness for C3 on a concrete two-measure score. -/
theorem measures_partition_witness :
    List.Chain' (fun a b => a.endTime = b.start)
      (parseScore 60 "t" "c" demoMs).measures
  ∧ ∃ m0, (parseScore 60 "t" "c" demoMs).measures.head? = some m0
      ∧ m0.start = 0 := by
  have h := measures_partition 60 "t" "c" demoMs
  have hm : (parseScore 60 "t" "c" demoMs).measures = [⟨1, 0, 1⟩, ⟨2, 1, 2⟩] := by
    norm_num [demoMs, parseScore, parseMeasures, processMeasure, processNotes, emitNote]
  exact ⟨h.1, ⟨1, 0, 1⟩, by rw [hm]; rfl, h.2 ⟨1, 0, 1⟩ (by rw [hm]; rfl)⟩

/-- C10: a measure's span equals the sum of the durations of the notes
emitted for it (rests and dropped entries advance nothing), and an
all-rest measure has `end = start`. -/
theorem measure_span (tempo : ℚ) (clock : ℚ) (m : XMeasure) :
    (processMeasure tempo clock m).2.endTime - (processMeasure tempo clock m).2.start
      = ((processMeasure tempo clock m).1.map (fun note => note.duration)).sum
  ∧ ((∀ n ∈ m.notes, n.isRest = true) →
      (processMeasure tempo clock m).1 = []
      ∧ (processMeasure tempo clock m).2.endTime = (processMeasure tempo clock m).2.start) := by
  constructor
  · have h := processNotes_clock tempo (m.divisions.getD 4) m.number m.notes clock 0
    show (processNotes tempo (m.divisions.getD 4) m.number clock 0 m.notes).2 - clock
      = ((processNotes tempo (m.divisions.getD 4) m.number clock 0 m.notes).1.map
          (fun note => note.duration)).sum
    rw [h]
    ring
  · intro hall
    have h := processNotes_all_rest tempo (m.divisions.getD 4) m.number m.notes hall clock 0
    constructor
    · show (processNotes tempo (m.divisions.getD 4) m.number clock 0 m.notes).1 = []
      rw [h]
    · show (processNotes tempo (m.divisions.getD 4) m.number clock 0 m.notes).2 = clock
      rw [h]

/-- Witness for C10 on a concrete all-rest measure. -/
theorem measure_span_witness :
    (processMeasure 60 0 ⟨1, none, [⟨true, none, none, none, some 4, none⟩]⟩).1 = []
  ∧ (processMeasure 60 0 ⟨1, none, [⟨true, none, none, none, some 4, none⟩]⟩).2.endTime
      = (processMeasure 60 0 ⟨1, none, [⟨true, none, none, none, some 4, none⟩]⟩).2.start := by
  exact (measure_span 60 0 ⟨1, none, [⟨true, none, none, none, some 4, none⟩]⟩).2
    (by intro n hn; rw [List.mem_singleton] at hn; subst hn; rfl)

/-- C4: the active-notes query returns exactly the notes with
`start ≤ t ≤ end` (closed at both endpoints), and is empty for any `t`
strictly after the final measure's end. -/
theorem activeNotes_spec (tempo : ℚ) (htempo : 0 ≤ tempo) (title composer : String)
    (ms : List XMeasure) (t : ℚ) :
    (∀ note, note ∈ getActiveNotesAtTime (parseScore tempo title composer ms) t
      ↔ note ∈ (parseScore tempo title composer ms).notes
          ∧ note.start ≤ t ∧ t ≤ note.endTime)
  ∧ (∀ lm, (parseScore tempo title composer ms).measures.getLast? = some lm →
      lm.endTime < t →
      getActiveNotesAtTime (parseScore tempo title composer ms) t = []) := by
  constructor
  · intro note
    rw [getActiveNotesAtTime, List.mem_filter]
    simp only [activePred, Bool.and_eq_true, decide_eq_true_eq, ge_iff_le]
  · intro lm hlast hlt
    have hne : ms ≠ [] := by
      intro h
      subst h
      simp [parseScore, parseMeasures] at hlast
    obtain ⟨lm2, h1, h2⟩ := parseMeasures_last tempo ms 0 hne
    have hlm : lm = lm2 := by
      have heq : (parseScore tempo title composer ms).measures
          = (parseMeasures tempo 0 ms).2 := rfl
      rw [heq, h1] at hlast
      exact (Option.some_inj.mp hlast).symm
    subst hlm
    rw [getActiveNotesAtTime, List.filter_eq_nil_iff]
    intro note hnote
    have hle : note.endTime ≤ finalClock tempo 0 ms :=
      parseMeasures_notes_le tempo htempo ms 0 note hnote
    rw [← h2] at hle
    simp only [activePred, Bool.and_eq_true, decide_eq_true_eq, ge_iff_le, not_and]
    intro _
    intro hc
    linarith

/-- Witness for C4 on a concrete score at a time past the final measure. -/
theorem activeNotes_spec_witness :
    getActiveNotesAtTime (parseScore 60 "t" "c" demoMs) 5 = []
  ∧ ∀ note, note ∈ getActiveNotesAtTime (parseScore 60 "t" "c" demoMs) 5
      ↔ note ∈ (parseScore 60 "t" "c" demoMs).notes
          ∧ note.start ≤ 5 ∧ 5 ≤ note.endTime := by
  have h := activeNotes_spec 60 (by norm_num) "t" "c" demoMs 5
  have hm : (parseScore 60 "t" "c" demoMs).measures = [⟨1, 0, 1⟩, ⟨2, 1, 2⟩] := by
    norm_num [demoMs, parseScore, parseMeasures, processMeasure, processNotes, emitNote]
  exact ⟨h.2 ⟨2, 1, 2⟩ (by rw [hm]; rfl) (by norm_num), h.1⟩

/-- Every note of the measure walk has the uniform duration shape
`(d / div) * (60 / tempo)` for its own divisions count. -/
theorem parseMeasures_duration (tempo : ℚ) :
    ∀ (ms : List XMeasure) (clock : ℚ),
      ∀ note ∈ (parseMeasures tempo clock ms).1,
        ∃ d div : ℕ, note.duration = ((d : ℚ) / (div : ℚ)) * (60 / tempo) := by
  intro ms
  induction ms with
  | nil =>
    intro clock note h
    simp [parseMeasures] at h
  | cons m rest ih =>
    intro clock note h
    simp only [parseMeasures] at h
    rcases List.mem_append.mp h with h | h
    · obtain ⟨d, hd⟩ := processNotes_duration tempo (m.divisions.getD 4) m.number
        m.notes clock 0 note h
      exact ⟨d, m.divisions.getD 4, hd⟩
    · exact ih (processMeasure tempo clock m).2.endTime note h

/-- C7 amended: the tempo declaration is read once; absence or an empty
attribute value yields 74; a present nonempty value goes through
`parseInt` (so a malformed value yields NaN, not 74); whatever tempo is
resolved enters every note-duration conversion uniformly. -/
theorem tempo_resolution (s : String) (hs : s ≠ "") :
    parseTempoAttr none = some 74
  ∧ parseTempoAttr (some "") = some 74
  ∧ parseTempoAttr (some s) = jsParseInt s
  ∧ ∀ (tempo : ℚ) (title composer : String) (ms : List XMeasure),
      ∀ note ∈ (parseScore tempo title composer ms).notes,
        ∃ d div : ℕ, note.duration = ((d : ℚ) / (div : ℚ)) * (60 / tempo) := by
  refine ⟨rfl, by decide, ?_, ?_⟩
  · show jsParseInt (if s = "" then "74" else s) = jsParseInt s
    rw [if_neg hs]
  · intro tempo title composer ms note h
    exact parseMeasures_duration tempo ms 0 note h

/-- Witness for C7's amended claim. -/
theorem tempo_resolution_witness :
    parseTempoAttr (some "80") = jsParseInt "80"
  ∧ parseTempoAttr none = some 74 := by
  have h := tempo_resolution "80" (by decide)
  exact ⟨h.2.2.1, h.1⟩

/-! ## MIDI matcher lemmas and claim theorems -/

/-- Note-on handling when the expected-note search succeeds: the matched
record is appended. -/
theorem handleMIDI_noteOn_found (ens : List ExpectedNote) (ct : ℚ) (now : String)
    (ts : ℚ) (command note velocity : ℕ) (s : MIDIState)
    (hc : 144 ≤ command ∧ command ≤ 159 ∧ 0 < velocity)
    (en : ExpectedNote) (hfind : ens.find? (matchPred ct note) = some en) :
    handleMIDIMessage (some ens) (some ct) now ts command note velocity s
      = { activeNotes := s.activeNotes ++ [⟨note, velocity, ts⟩],
          accuracy := s.accuracy ++ [⟨en.id, en.pitch, (note : ℤ),
            jsRound ((ts - en.start) * 1000), true⟩] } := by
  rw [handleMIDIMessage, if_pos hc]
  simp only [hfind]

/-- Note-on handling when the expected-note search fails: the wrong-note
record is appended. -/
theorem handleMIDI_noteOn_nomatch (ens : List ExpectedNote) (ct : ℚ) (now : String)
    (ts : ℚ) (command note velocity : ℕ) (s : MIDIState)
    (hc : 144 ≤ command ∧ command ≤ 159 ∧ 0 < velocity)
    (hfind : ens.find? (matchPred ct note) = none) :
    handleMIDIMessage (some ens) (some ct) now ts command note velocity s
      = { activeNotes := s.activeNotes ++ [⟨note, velocity, ts⟩],
          accuracy := s.accuracy ++ [⟨"wrong-" ++ now, -1, (note : ℤ), 0, false⟩] } := by
  rw [handleMIDIMessage, if_pos hc]
  simp only [hfind]

/-- C1: every note-on processed with an expected-note list and a defined
transport time appends exactly one accuracy record; the search picks the
first (document-order) expected note within the 1-second window with the
pressed pitch, and the appended record carries its id, pitch, the pressed
pitch and `isCorrect = true`; with no match the record is the generated
`wrong-` sentinel with expected pitch −1, offset 0 and
`isCorrect = false`. -/
theorem noteOn_appends_record (ens : List ExpectedNote) (ct : ℚ) (now : String)
    (ts : ℚ) (command note velocity : ℕ) (s : MIDIState)
    (hc1 : 144 ≤ command) (hc2 : command ≤ 159) (hv : 0 < velocity) :
    ((handleMIDIMessage (some ens) (some ct) now ts command note velocity s).accuracy).length
      = s.accuracy.length + 1
  ∧ (∀ en, ens.find? (matchPred ct note) = some en →
      (handleMIDIMessage (some ens) (some ct) now ts command note velocity s).accuracy
        = s.accuracy ++ [⟨en.id, en.pitch, (note : ℤ),
            jsRound ((ts - en.start) * 1000), true⟩])
  ∧ (ens.find? (matchPred ct note) = none →
      (handleMIDIMessage (some ens) (some ct) now ts command note velocity s).accuracy
        = s.accuracy ++ [⟨"wrong-" ++ now, -1, (note : ℤ), 0, false⟩])
  ∧ (∀ en pre post, ens = pre ++ en :: post → matchPred ct note en = true →
      (∀ x ∈ pre, matchPred ct note x = false) →
      ens.find? (matchPred ct note) = some en) := by
  have hc : 144 ≤ command ∧ command ≤ 159 ∧ 0 < velocity := ⟨hc1, hc2, hv⟩
  refine ⟨?_, ?_, ?_, ?_⟩
  · cases hfind : ens.find? (matchPred ct note) with
    | none =>
      rw [handleMIDI_noteOn_nomatch ens ct now ts command note velocity s hc hfind]
      simp
    | some en =>
      rw [handleMIDI_noteOn_found ens ct now ts command note velocity s hc en hfind]
      simp
  · intro en hfind
    rw [handleMIDI_noteOn_found ens ct now ts command note velocity s hc en hfind]
  · intro hfind
    rw [handleMIDI_noteOn_nomatch ens ct now ts command note velocity s hc hfind]
  · intro en pre post hsplit hm hpre
    rw [hsplit]
    exact find?_append_first _ pre en post hpre hm

/-- Witness for C1: pressing pitch 60 at transport time 0 against a
single expected note of pitch 60 starting at 0. -/
theorem noteOn_appends_record_witness :
    (handleMIDIMessage (some [⟨"n1", 60, 0, 1⟩]) (some 0) "1" 0 144 60 64
        ⟨[], []⟩).accuracy
      = [] ++ [⟨"n1", 60, (60 : ℕ), jsRound ((0 - 0) * 1000), true⟩] := by
  have h := noteOn_appends_record [⟨"n1", 60, 0, 1⟩] 0 "1" 0 144 60 64 ⟨[], []⟩
    (by norm_num) (by norm_num) (by norm_num)
  refine h.2.1 ⟨"n1", 60, 0, 1⟩ ?_
  refine List.find?_cons_of_pos _ ?_
  simp [matchPred]

/-- C5: pressing exactly the expected pitch at exactly the expected start
time (both the transport clock and the hardware timestamp sitting at the
note's start, the note being the first in-window candidate of its pitch)
appends a record with `isCorrect = true` and `timingOffset = 0`. -/
theorem exact_press_zero_offset (pre post : List ExpectedNote) (en : ExpectedNote)
    (now : String) (command note velocity : ℕ) (s : MIDIState)
    (hpre : ∀ x ∈ pre, matchPred en.start note x = false)
    (hpitch : en.pitch = (note : ℤ))
    (hc1 : 144 ≤ command) (hc2 : command ≤ 159) (hv : 0 < velocity) :
    (handleMIDIMessage (some (pre ++ en :: post)) (some en.start) now en.start
        command note velocity s).accuracy
      = s.accuracy ++ [⟨en.id, en.pitch, (note : ℤ), 0, true⟩] := by
  have hm : matchPred en.start note en = true := by
    simp [matchPred, hpitch]
  have hfind : (pre ++ en :: post).find? (matchPred en.start note) = some en :=
    find?_append_first _ pre en post hpre hm
  rw [handleMIDI_noteOn_found (pre ++ en :: post) en.start now en.start command note
    velocity s ⟨hc1, hc2, hv⟩ en hfind]
  have hz : jsRound ((en.start - en.start) * 1000) = 0 := by
    have : (en.start - en.start) * 1000 = ((0 : ℤ) : ℚ) := by norm_num
    rw [this, jsRound_intCast]
    norm_num
  rw [hz]

/-- Witness for C5: a singleton expected-note list, pitch 60 at start
time 0, pressed at exactly time 0. -/
theorem exact_press_zero_offset_witness :
    (handleMIDIMessage (some ([] ++ (⟨"n1", 60, 0, 1⟩ : ExpectedNote) :: []))
        (some 0) "1" 0 144 60 64 ⟨[], []⟩).accuracy
      = [] ++ [⟨"n1", 60, (60 : ℕ), 0, true⟩] := by
  exact exact_press_zero_offset [] [] ⟨"n1", 60, 0, 1⟩ "1" 144 60 64 ⟨[], []⟩
    (by intro x hx; simp at hx) rfl (by norm_num) (by norm_num) (by norm_num)
